import Mathlib

/-!
# Verification of the proconio tokenizing-source and typed-read core

This file gives a shallow embedding of the `proconio` input core: the
whitespace tokenizer over a byte stream, the `Readable` scalar conversions
(integers, decrementing one-indexed kinds, the zero-token marker), and the
composite reads generated by the `read_value!` / `input!` macros (tuples,
`[kind; len]` sequences, derived aggregate structs), together with proofs of
the specified properties.

The macro layer (`input!`, `read_value!`) is embedded from `src/lib.rs`:
an `input!` invocation is a left-to-right list of `read_value!` calls, the
array form iterates its element kind `len` times, the tuple form reads its
component kinds in order.  The tokenizer and the scalar `Readable`
implementations live in the crate's `source`/`read`/`types` modules, which
are declared but not present here; those definitions are modelled from the
spec, as marked in their doc comments.
-/

namespace Proconio

/-- A source state: the remaining (unconsumed) bytes of the input.
Modelled from the spec: the Token Cursor owns a byte buffer and a cursor
position; we identify a state with the suffix of the buffer at the cursor. -/
abbrev Source := List Nat

/-- Modelled from the spec: whitespace is exactly space, tab, CR, LF. -/
def isWs (b : Nat) : Bool := b == 32 || b == 9 || b == 13 || b == 10

/-- A non-whitespace byte (token bytes). -/
def notWs (b : Nat) : Bool := !isWs b

/-- Modelled from the spec: `nextToken` skips leading whitespace, then
returns the maximal run of non-whitespace bytes and the remaining suffix,
or signals exhaustion when only whitespace remains. -/
def nextToken (s : Source) : Option (List Nat × Source) :=
  match s.dropWhile isWs with
  | [] => none
  | b :: rest => some ((b :: rest).takeWhile notWs, (b :: rest).dropWhile notWs)

/-- Fuel-driven tokenization worker; fuel bounds the number of steps. -/
def tokenizeAux : Nat → Source → List (List Nat)
  | 0, _ => []
  | fuel + 1, s =>
    match nextToken s with
    | none => []
    | some (t, s') => t :: tokenizeAux fuel s'

/-- The full token list of a byte stream (the length of the stream bounds
the number of tokens, so it is enough fuel). -/
def tokenize (s : Source) : List (List Nat) := tokenizeAux s.length s

/-- An ASCII decimal digit byte. -/
def isDigit (b : Nat) : Bool := 48 ≤ b && b ≤ 57

/-- The value of a run of decimal digit bytes, most significant first. -/
def digitsVal (bs : List Nat) : Nat := bs.foldl (fun a b => a * 10 + (b - 48)) 0

/-- Modelled from the spec: parsing a token as an unsigned decimal numeral
(standard textual numeric grammar, digits only); fails on an empty token or
any non-digit byte. -/
def parseNatTok (bs : List Nat) : Option Nat :=
  if bs.isEmpty then none
  else if bs.all isDigit then some (digitsVal bs) else none

/-- Modelled from the spec: parsing a token as a signed decimal numeral —
an optional leading sign (`+` = 43, `-` = 45) followed by digits. -/
def parseIntTok (bs : List Nat) : Option Int :=
  match bs with
  | 45 :: rest => (parseNatTok rest).map fun n => -(n : Int)
  | 43 :: rest => (parseNatTok rest).map fun n => (n : Int)
  | _ => (parseNatTok bs).map fun n => (n : Int)

/-- The scalar kinds the claims exercise: fixed-width unsigned/signed
integers and the decrementing one-indexed kinds `Usize1`/`Isize1`. -/
inductive Scalar where
  | u8 | u32 | usize | i32 | isize | usize1 | isize1
deriving DecidableEq

/-- Output values: integers (signed and unsigned uniformly as `Int`), the
unit sentinel of a marker kind, sequences and tuples. -/
inductive Value where
  | int (z : Int)
  | unit
  | seq (vs : List Value)
  | tuple (vs : List Value)

/-- Modelled from the spec: the scalar `Readable` conversions.  Each one
decodes a single token: unsigned kinds parse digits and range-check against
the type's width; signed kinds parse an optionally signed numeral and
range-check; the decrementing kinds parse as the corresponding integer type
and subtract one, failing at the type's minimum value. -/
def Scalar.read : Scalar → List Nat → Option Value
  | .u8, t => (parseNatTok t).bind fun n =>
      if n < 2 ^ 8 then some (.int n) else none
  | .u32, t => (parseNatTok t).bind fun n =>
      if n < 2 ^ 32 then some (.int n) else none
  | .usize, t => (parseNatTok t).bind fun n =>
      if n < 2 ^ 64 then some (.int n) else none
  | .i32, t => (parseIntTok t).bind fun z =>
      if -(2 ^ 31 : Int) ≤ z ∧ z < 2 ^ 31 then some (.int z) else none
  | .isize, t => (parseIntTok t).bind fun z =>
      if -(2 ^ 63 : Int) ≤ z ∧ z < 2 ^ 63 then some (.int z) else none
  | .usize1, t => (parseNatTok t).bind fun n =>
      if n < 2 ^ 64 then
        if n = 0 then none else some (.int ((n : Int) - 1))
      else none
  | .isize1, t => (parseIntTok t).bind fun z =>
      if -(2 ^ 63 : Int) ≤ z ∧ z < 2 ^ 63 then
        if z = -(2 ^ 63 : Int) then none else some (.int (z - 1))
      else none

mutual
/-- A kind descriptor, as accepted by `read_value!`: a scalar type name, the
zero-field marker struct, a parenthesized tuple of kinds, or `[kind; len]`
(the length already evaluated to a number, as `read_value!` receives it). -/
inductive Kind where
  | scalar (sk : Scalar)
  | marker
  | tuple (ks : KindList)
  | seq (k : Kind) (n : Nat)

/-- The (possibly empty) component list of a tuple kind. -/
inductive KindList where
  | nil
  | cons (k : Kind) (ks : KindList)
end

/-- Reading one kind `n` times in order from a source, threading the state:
the loop body of `read_value!`'s array rule (`for _ in 0..len { push }`). -/
def iterRead (f : Source → Option (Value × Source)) : Nat → Source → Option (List Value × Source)
  | 0, s => some ([], s)
  | n + 1, s =>
    match f s with
    | none => none
    | some (v, s₁) =>
      match iterRead f n s₁ with
      | none => none
      | some (vs, s₂) => some (v :: vs, s₂)

mutual
/-- `read_value!(kind; source)`: scalar kinds take one token through
`nextToken` and convert it; the marker kind reads nothing and returns the
sentinel; a tuple reads its component kinds in order; `[kind; n]` reads
`kind` exactly `n` times, collecting the results in order. -/
def readValue : Kind → Source → Option (Value × Source)
  | .scalar sk => fun s =>
    match nextToken s with
    | none => none
    | some (t, s₁) =>
      match Scalar.read sk t with
      | none => none
      | some v => some (v, s₁)
  | .marker => fun s => some (.unit, s)
  | .tuple ks => fun s =>
    match readValueList ks s with
    | none => none
    | some (vs, s₁) => some (.tuple vs, s₁)
  | .seq k n => fun s =>
    match iterRead (readValue k) n s with
    | none => none
    | some (vs, s₁) => some (.seq vs, s₁)

/-- The component reads of a tuple kind, left to right on one source. -/
def readValueList : KindList → Source → Option (List Value × Source)
  | .nil => fun s => some ([], s)
  | .cons k ks => fun s =>
    match readValue k s with
    | none => none
    | some (v, s₁) =>
      match readValueList ks s₁ with
      | none => none
      | some (vs, s₂) => some (v :: vs, s₂)
end

/-- `input! { from source, x₁: k₁, x₂: k₂, ... }`: one `read_value!` call
per binding, in declaration order, threading the source. -/
def input : List Kind → Source → Option (List Value × Source)
  | [], s => some ([], s)
  | k :: ks, s =>
    match readValue k s with
    | none => none
    | some (v, s₁) =>
      match input ks s₁ with
      | none => none
      | some (vs, s₂) => some (v :: vs, s₂)

mutual
/-- The number of tokens a kind consumes (well defined because every
sequence length is a fixed number by the time `read_value!` runs). -/
def Kind.tokenCount : Kind → Nat
  | .scalar _ => 1
  | .marker => 0
  | .tuple ks => KindList.tokenCounts ks
  | .seq k n => n * k.tokenCount

/-- Total token consumption of a tuple's components. -/
def KindList.tokenCounts : KindList → Nat
  | .nil => 0
  | .cons k ks => k.tokenCount + KindList.tokenCounts ks
end

/-- The bytes of a string, for writing concrete inputs. -/
def strBytes (s : String) : List Nat := s.toList.map Char.toNat

/-- The decimal digits of `n`, least significant first, with fuel. -/
def decDigitsAux : Nat → Nat → List Nat
  | 0, _ => []
  | fuel + 1, n => if n = 0 then [] else n % 10 :: decDigitsAux fuel (n / 10)

/-- The decimal rendering of a non-negative integer as ASCII bytes, most
significant digit first (`0` renders as `"0"`). -/
def decBytes (n : Nat) : List Nat :=
  if n = 0 then [48] else ((decDigitsAux n n).reverse).map (· + 48)

/-- The value of a least-significant-first digit list. -/
def valLSB : List Nat → Nat
  | [] => 0
  | d :: l => d + 10 * valLSB l

/-- Joining a token list with a single space between consecutive tokens. -/
def spaceJoin : List (List Nat) → List Nat
  | [] => []
  | [t] => t
  | t :: ts => t ++ 32 :: spaceJoin ts

/-- A byte list made only of whitespace. -/
def wsOnly (l : List Nat) : Bool := l.all isWs

/-- A well-formed token: non-empty and free of whitespace bytes. -/
def tokOk (t : List Nat) : Bool := !t.isEmpty && t.all notWs

/-- A byte stream that is empty or starts with whitespace: exactly the
shapes that can legally follow a token. -/
def wsBoundary : List Nat → Bool
  | [] => true
  | b :: _ => isWs b

/-- The byte stream built from token/separator pairs: each token followed
by its trailing whitespace run. -/
def render (ps : List (List Nat × List Nat)) : List Nat :=
  (ps.map fun p => p.1 ++ p.2).flatten

/-- The output type of the `Edge` aggregate of the `derive_readable` doc
example: `{from: usize, to: Usize1, weight: Weight (marker), cost: i32}`
with `Usize1`'s output type `usize` and the marker's a unit sentinel. -/
structure Edge where
  fr : Int
  toV : Int
  weight : Unit
  cost : Int
deriving DecidableEq

/-- Modelled from the spec: the reader that `derive_readable` generates for
the `Edge` aggregate — each named field's kind is read in declaration order
from the same source (`from: usize`, `to: Usize1`, `weight:` marker,
`cost: i32`). -/
def readEdge (s : Source) : Option (Edge × Source) :=
  match readValue (.scalar .usize) s with
  | some (.int a, s₁) =>
    match readValue (.scalar .usize1) s₁ with
    | some (.int b, s₂) =>
      match readValue .marker s₂ with
      | some (_, s₃) =>
        match readValue (.scalar .i32) s₃ with
        | some (.int c, s₄) => some (⟨a, b, (), c⟩, s₄)
        | _ => none
      | _ => none
    | _ => none
  | _ => none

/-! ## Tokenizer lemmas -/

theorem length_dropWhile_le (p : Nat → Bool) :
    ∀ l : List Nat, (l.dropWhile p).length ≤ l.length := by
  intro l
  induction l with
  | nil => simp
  | cons b l ih =>
    by_cases hb : p b
    · rw [List.dropWhile_cons_of_pos hb]; exact Nat.le_succ_of_le ih
    · rw [List.dropWhile_cons_of_neg hb]

theorem head_dropWhile_false (p : Nat → Bool) :
    ∀ (l : List Nat) {b : Nat} {rest : List Nat}, l.dropWhile p = b :: rest → p b = false := by
  intro l
  induction l with
  | nil => intro b rest h; simp [List.dropWhile] at h
  | cons c l ih =>
    intro b rest h
    by_cases hc : p c
    · rw [List.dropWhile_cons_of_pos hc] at h; exact ih h
    · rw [List.dropWhile_cons_of_neg hc] at h
      cases h
      exact Bool.eq_false_iff.mpr hc

theorem nextToken_some {s : Source} {t : List Nat} {s' : Source}
    (h : nextToken s = some (t, s')) : t ≠ [] ∧ s'.length < s.length := by
  unfold nextToken at h
  cases hd : s.dropWhile isWs with
  | nil => rw [hd] at h; exact absurd h (by simp)
  | cons b rest =>
    rw [hd] at h
    dsimp only at h
    have hb : isWs b = false := head_dropWhile_false isWs s hd
    have hnb : notWs b = true := by simp [notWs, hb]
    rw [List.takeWhile_cons_of_pos hnb, List.dropWhile_cons_of_pos hnb] at h
    injection h with h
    injection h with h₁ h₂
    constructor
    · rw [← h₁]; simp
    · rw [← h₂]
      calc (rest.dropWhile notWs).length
          ≤ rest.length := length_dropWhile_le notWs rest
        _ < (b :: rest).length := by simp
        _ = (s.dropWhile isWs).length := by rw [hd]
        _ ≤ s.length := length_dropWhile_le isWs s

theorem tokenizeAux_congr :
    ∀ (f₁ f₂ : Nat) (s : Source), s.length ≤ f₁ → s.length ≤ f₂ →
    tokenizeAux f₁ s = tokenizeAux f₂ s := by
  intro f₁
  induction f₁ with
  | zero =>
    intro f₂ s h₁ _
    have hs : s = [] := List.length_eq_zero.mp (Nat.le_zero.mp h₁)
    subst hs
    cases f₂ <;> simp [tokenizeAux, nextToken, List.dropWhile]
  | succ f₁ ih =>
    intro f₂ s h₁ h₂
    cases f₂ with
    | zero =>
      have hs : s = [] := List.length_eq_zero.mp (Nat.le_zero.mp h₂)
      subst hs
      simp [tokenizeAux, nextToken, List.dropWhile]
    | succ f₂ =>
      show tokenizeAux (f₁ + 1) s = tokenizeAux (f₂ + 1) s
      cases hnt : nextToken s with
      | none => simp [tokenizeAux, hnt]
      | some ts =>
        obtain ⟨t, s'⟩ := ts
        have hlt := (nextToken_some hnt).2
        simp only [tokenizeAux, hnt]
        rw [ih f₂ s' (by omega) (by omega)]

theorem tokenize_none {s : Source} (h : nextToken s = none) : tokenize s = [] := by
  unfold tokenize
  cases hl : s.length with
  | zero => simp [tokenizeAux]
  | succ n => simp [tokenizeAux, h]

theorem tokenize_some {s : Source} {t : List Nat} {s' : Source}
    (h : nextToken s = some (t, s')) : tokenize s = t :: tokenize s' := by
  have hlt := (nextToken_some h).2
  unfold tokenize
  cases hl : s.length with
  | zero =>
    exfalso
    have : s = [] := List.length_eq_zero.mp hl
    subst this
    simp [nextToken, List.dropWhile] at h
  | succ n =>
    simp only [tokenizeAux, h]
    rw [tokenizeAux_congr n s'.length s' (by omega) (by omega)]

theorem dropWhile_append_all {p : Nat → Bool} :
    ∀ {l₁ l₂ : List Nat}, l₁.all p → (l₁ ++ l₂).dropWhile p = l₂.dropWhile p := by
  intro l₁
  induction l₁ with
  | nil => intro l₂ _; simp
  | cons b l ih =>
    intro l₂ h
    simp only [List.all_cons, Bool.and_eq_true] at h
    rw [List.cons_append, List.dropWhile_cons_of_pos h.1]
    exact ih h.2

theorem takeWhile_append_all {p : Nat → Bool} :
    ∀ {l₁ l₂ : List Nat}, l₁.all p → (l₁ ++ l₂).takeWhile p = l₁ ++ l₂.takeWhile p := by
  intro l₁
  induction l₁ with
  | nil => intro l₂ _; simp
  | cons b l ih =>
    intro l₂ h
    simp only [List.all_cons, Bool.and_eq_true] at h
    simp [List.takeWhile_cons_of_pos h.1, ih h.2]

theorem takeWhile_notWs_boundary {s : List Nat} (h : wsBoundary s = true) :
    s.takeWhile notWs = [] := by
  cases s with
  | nil => rfl
  | cons b rest =>
    have hb : notWs b = false := by simp [wsBoundary] at h; simp [notWs, h]
    exact List.takeWhile_cons_of_neg (by simp [hb])

theorem dropWhile_notWs_boundary {s : List Nat} (h : wsBoundary s = true) :
    s.dropWhile notWs = s := by
  cases s with
  | nil => rfl
  | cons b rest =>
    have hb : notWs b = false := by simp [wsBoundary] at h; simp [notWs, h]
    exact List.dropWhile_cons_of_neg (by simp [hb])

theorem nextToken_ws_lead {lead : List Nat} (h : wsOnly lead = true) (s : Source) :
    nextToken (lead ++ s) = nextToken s := by
  unfold nextToken
  rw [dropWhile_append_all h]

theorem nextToken_token_lead {t : List Nat} {s : Source}
    (ht : tokOk t = true) (hs : wsBoundary s = true) :
    nextToken (t ++ s) = some (t, s) := by
  cases t with
  | nil => simp [tokOk] at ht
  | cons b t' =>
    have hall : notWs b = true ∧ t'.all notWs = true := by
      simpa [tokOk, List.all_cons] using ht
    have hb : isWs b = false := by
      have := hall.1; simp [notWs] at this; simpa using this
    unfold nextToken
    rw [List.cons_append, List.dropWhile_cons_of_neg (by simp [hb])]
    dsimp only
    rw [← List.cons_append]
    rw [takeWhile_append_all (by simp [List.all_cons, hall.1, hall.2]),
        dropWhile_append_all (by simp [List.all_cons, hall.1, hall.2])]
    rw [takeWhile_notWs_boundary hs, dropWhile_notWs_boundary hs, List.append_nil]

theorem tokenize_ws_lead {lead : List Nat} (h : wsOnly lead = true) (s : Source) :
    tokenize (lead ++ s) = tokenize s := by
  cases hnt : nextToken s with
  | none =>
    rw [tokenize_none hnt, tokenize_none (by rw [nextToken_ws_lead h, hnt])]
  | some ts =>
    obtain ⟨t, s'⟩ := ts
    rw [tokenize_some hnt, tokenize_some (show nextToken (lead ++ s) = some (t, s') by
      rw [nextToken_ws_lead h, hnt])]

theorem tokenize_token_lead {t : List Nat} {s : Source}
    (ht : tokOk t = true) (hs : wsBoundary s = true) :
    tokenize (t ++ s) = t :: tokenize s :=
  tokenize_some (nextToken_token_lead ht hs)

theorem tokenize_single {t : List Nat} (ht : tokOk t = true) : tokenize t = [t] := by
  have := tokenize_token_lead (s := []) ht rfl
  rw [List.append_nil] at this
  rw [this]
  rfl

theorem wsBoundary_ws_lead {w : List Nat} (hne : w ≠ []) (hw : wsOnly w = true)
    (x : List Nat) : wsBoundary (w ++ x) = true := by
  cases w with
  | nil => exact absurd rfl hne
  | cons c w' =>
    simp only [wsOnly, List.all_cons, Bool.and_eq_true] at hw
    simpa [wsBoundary] using hw.1

theorem tokenize_render :
    ∀ (ps : List (List Nat × List Nat)) (lead tfin : List Nat),
    wsOnly lead = true → tfin.all notWs = true →
    (∀ p ∈ ps, tokOk p.1 = true ∧ p.2 ≠ [] ∧ wsOnly p.2 = true) →
    tokenize (lead ++ render ps ++ tfin) =
      ps.map Prod.fst ++ (if tfin.isEmpty then [] else [tfin]) := by
  intro ps
  induction ps with
  | nil =>
    intro lead tfin hlead htf _
    rw [show render [] = [] from rfl, List.append_nil, tokenize_ws_lead hlead]
    cases tfin with
    | nil => rfl
    | cons b t' =>
      rw [tokenize_single (by simp [tokOk, htf])]
      rfl
  | cons p ps ih =>
    obtain ⟨t, w⟩ := p
    intro lead tfin hlead htf hps
    have hp := hps (t, w) (by simp)
    have hrest : ∀ q ∈ ps, tokOk q.1 = true ∧ q.2 ≠ [] ∧ wsOnly q.2 = true :=
      fun q hq => hps q (by simp [hq])
    have hrw : lead ++ render ((t, w) :: ps) ++ tfin
        = lead ++ (t ++ (w ++ render ps ++ tfin)) := by
      simp [render, List.append_assoc]
    rw [hrw, tokenize_ws_lead hlead,
        tokenize_token_lead hp.1
          (by rw [List.append_assoc]
              exact wsBoundary_ws_lead hp.2.1 hp.2.2 (render ps ++ tfin))]
    rw [ih w tfin hp.2.2 htf hrest]
    simp

theorem tokenize_spaceJoin :
    ∀ ts : List (List Nat), (∀ t ∈ ts, tokOk t = true) →
    tokenize (spaceJoin ts) = ts := by
  intro ts
  induction ts with
  | nil => intro _; rfl
  | cons t ts ih =>
    intro h
    cases ts with
    | nil => exact tokenize_single (h t (by simp))
    | cons t' ts' =>
      rw [show spaceJoin (t :: t' :: ts') = t ++ 32 :: spaceJoin (t' :: ts') from rfl]
      rw [tokenize_token_lead (h t (by simp)) (by rfl)]
      rw [show (32 : Nat) :: spaceJoin (t' :: ts') = [32] ++ spaceJoin (t' :: ts') from rfl]
      rw [tokenize_ws_lead (by rfl)]
      rw [ih (fun u hu => h u (by simp [hu]))]

/-! ## Read-consumption lemmas -/

theorem readValue_scalar_inv {sk : Scalar} {s : Source} {v : Value} {s' : Source}
    (h : readValue (.scalar sk) s = some (v, s')) :
    ∃ t, nextToken s = some (t, s') ∧ Scalar.read sk t = some v := by
  unfold readValue at h
  cases hnt : nextToken s with
  | none => rw [hnt] at h; simp at h
  | some ts =>
    obtain ⟨t, s₁⟩ := ts
    rw [hnt] at h
    dsimp only at h
    cases hr : Scalar.read sk t with
    | none => rw [hr] at h; simp at h
    | some v₀ =>
      rw [hr] at h
      dsimp only at h
      injection h with h
      injection h with h₁ h₂
      subst h₁; subst h₂
      exact ⟨t, rfl, hr⟩

theorem readValue_seq_inv {k : Kind} {n : Nat} {s : Source} {v : Value} {s' : Source}
    (h : readValue (.seq k n) s = some (v, s')) :
    ∃ vs, iterRead (readValue k) n s = some (vs, s') ∧ v = .seq vs := by
  unfold readValue at h
  cases hit : iterRead (readValue k) n s with
  | none => rw [hit] at h; simp at h
  | some p =>
    obtain ⟨vs, s₁⟩ := p
    rw [hit] at h
    dsimp only at h
    injection h with h
    injection h with h₁ h₂
    subst h₁; subst h₂
    exact ⟨vs, rfl, rfl⟩

theorem readValue_tuple_inv {ks : KindList} {s : Source} {v : Value} {s' : Source}
    (h : readValue (.tuple ks) s = some (v, s')) :
    ∃ vs, readValueList ks s = some (vs, s') ∧ v = .tuple vs := by
  unfold readValue at h
  cases hl : readValueList ks s with
  | none => rw [hl] at h; simp at h
  | some p =>
    obtain ⟨vs, s₁⟩ := p
    rw [hl] at h
    dsimp only at h
    injection h with h
    injection h with h₁ h₂
    subst h₁; subst h₂
    exact ⟨vs, rfl, rfl⟩

theorem iterRead_inv {f : Source → Option (Value × Source)} {n : Nat} {s : Source}
    {vs : List Value} {s' : Source}
    (h : iterRead f (n + 1) s = some (vs, s')) :
    ∃ v s₁ vs', f s = some (v, s₁) ∧ iterRead f n s₁ = some (vs', s') ∧ vs = v :: vs' := by
  unfold iterRead at h
  cases hf : f s with
  | none => rw [hf] at h; simp at h
  | some p =>
    obtain ⟨v, s₁⟩ := p
    rw [hf] at h
    dsimp only at h
    cases hit : iterRead f n s₁ with
    | none => rw [hit] at h; simp at h
    | some q =>
      obtain ⟨vs', s₂⟩ := q
      rw [hit] at h
      dsimp only at h
      injection h with h
      injection h with h₁ h₂
      subst h₁; subst h₂
      exact ⟨v, s₁, vs', rfl, hit, rfl⟩

theorem iterRead_drop {f : Source → Option (Value × Source)} {c : Nat}
    (hf : ∀ s v s', f s = some (v, s') → tokenize s' = (tokenize s).drop c) :
    ∀ (n : Nat) (s : Source) (vs : List Value) (s' : Source),
    iterRead f n s = some (vs, s') → tokenize s' = (tokenize s).drop (n * c) := by
  intro n
  induction n with
  | zero =>
    intro s vs s' h
    unfold iterRead at h
    injection h with h
    injection h with _ h₂
    subst h₂
    simp
  | succ n ih =>
    intro s vs s' h
    obtain ⟨v, s₁, vs', hf₁, hit, _⟩ := iterRead_inv h
    rw [ih s₁ vs' s' hit, hf s v s₁ hf₁, List.drop_drop]
    congr 1
    ring

mutual
theorem readValue_drop : ∀ (k : Kind) (s : Source) (v : Value) (s' : Source),
    readValue k s = some (v, s') → tokenize s' = (tokenize s).drop k.tokenCount
  | .scalar sk, s, v, s', h => by
    obtain ⟨t, hnt, _⟩ := readValue_scalar_inv h
    rw [tokenize_some hnt]
    rfl
  | .marker, s, v, s', h => by
    unfold readValue at h
    injection h with h
    injection h with _ h₂
    subst h₂
    rw [show Kind.marker.tokenCount = 0 from rfl, List.drop_zero]
  | .tuple ks, s, v, s', h => by
    obtain ⟨vs, hl, _⟩ := readValue_tuple_inv h
    exact readValueList_drop ks s vs s' hl
  | .seq k n, s, v, s', h => by
    obtain ⟨vs, hit, _⟩ := readValue_seq_inv h
    exact iterRead_drop (readValue_drop k) n s vs s' hit

theorem readValueList_drop : ∀ (ks : KindList) (s : Source) (vs : List Value) (s' : Source),
    readValueList ks s = some (vs, s') → tokenize s' = (tokenize s).drop ks.tokenCounts
  | .nil, s, vs, s', h => by
    unfold readValueList at h
    injection h with h
    injection h with _ h₂
    subst h₂
    simp [KindList.tokenCounts]
  | .cons k ks, s, vs, s', h => by
    unfold readValueList at h
    cases hk : readValue k s with
    | none => rw [hk] at h; simp at h
    | some p =>
      obtain ⟨v, s₁⟩ := p
      rw [hk] at h
      dsimp only at h
      cases hl : readValueList ks s₁ with
      | none => rw [hl] at h; simp at h
      | some q =>
        obtain ⟨vs', s₂⟩ := q
        rw [hl] at h
        dsimp only at h
        injection h with h
        injection h with _ h₂
        subst h₂
        rw [readValueList_drop ks s₁ vs' s₂ hl, readValue_drop k s v s₁ hk,
            List.drop_drop]
        rfl
end

/-! ## Element-indexing lemmas for sequence reads -/

theorem iterRead_zero_inv {f : Source → Option (Value × Source)} {s : Source}
    {vs : List Value} {s' : Source} (h : iterRead f 0 s = some (vs, s')) :
    vs = [] ∧ s' = s := by
  unfold iterRead at h
  injection h with h
  injection h with h₁ h₂
  exact ⟨h₁.symm, h₂.symm⟩

theorem iterRead_scalar (sk : Scalar) :
    ∀ (n : Nat) (s : Source) (vs : List Value) (s' : Source),
    iterRead (readValue (.scalar sk)) n s = some (vs, s') →
    vs.length = n ∧
    ∀ i, (hi : i < vs.length) → ∃ t, (tokenize s)[i]? = some t ∧
      Scalar.read sk t = some (vs.get ⟨i, hi⟩) := by
  intro n
  induction n with
  | zero =>
    intro s vs s' h
    obtain ⟨rfl, rfl⟩ := iterRead_zero_inv h
    exact ⟨rfl, fun i hi => absurd hi (by simp)⟩
  | succ n ih =>
    intro s vs s' h
    obtain ⟨v, s₁, vs', hv, hit, rfl⟩ := iterRead_inv h
    obtain ⟨t₀, hnt, hrd⟩ := readValue_scalar_inv hv
    obtain ⟨hlen, helem⟩ := ih s₁ vs' s' hit
    refine ⟨by simp [hlen], ?_⟩
    intro i hi
    cases i with
    | zero =>
      refine ⟨t₀, ?_, hrd⟩
      rw [tokenize_some hnt]
      exact List.getElem?_cons_zero
    | succ i =>
      have hi' : i < vs'.length := by simpa using hi
      obtain ⟨t, htok, hread⟩ := helem i hi'
      refine ⟨t, ?_, hread⟩
      rw [tokenize_some hnt, List.getElem?_cons_succ]
      exact htok

theorem iterRead_rows (sk : Scalar) (n : Nat) :
    ∀ (m : Nat) (s : Source) (rows : List Value) (s' : Source),
    iterRead (readValue (.seq (.scalar sk) n)) m s = some (rows, s') →
    rows.length = m ∧
    ∀ i, (hi : i < rows.length) → ∃ row : List Value,
      rows.get ⟨i, hi⟩ = .seq row ∧ row.length = n ∧
      ∀ j, (hj : j < row.length) → ∃ t, (tokenize s)[i * n + j]? = some t ∧
        Scalar.read sk t = some (row.get ⟨j, hj⟩) := by
  intro m
  induction m with
  | zero =>
    intro s rows s' h
    obtain ⟨rfl, rfl⟩ := iterRead_zero_inv h
    exact ⟨rfl, fun i hi => absurd hi (by simp)⟩
  | succ m ih =>
    intro s rows s' h
    obtain ⟨v, s₁, rows', hv, hit, rfl⟩ := iterRead_inv h
    obtain ⟨row₀, hrow₀, rfl⟩ := readValue_seq_inv hv
    obtain ⟨hlen₀, helem₀⟩ := iterRead_scalar sk n s row₀ s₁ hrow₀
    have hdrop : tokenize s₁ = (tokenize s).drop n := by
      have := readValue_drop (.seq (.scalar sk) n) s (.seq row₀) s₁ hv
      rw [this]
      congr 1
      show n * Kind.tokenCount (.scalar sk) = n
      rw [show Kind.tokenCount (.scalar sk) = 1 from rfl, Nat.mul_one]
    obtain ⟨hlen, helem⟩ := ih s₁ rows' s' hit
    refine ⟨by simp [hlen], ?_⟩
    intro i hi
    cases i with
    | zero =>
      refine ⟨row₀, rfl, hlen₀, ?_⟩
      intro j hj
      obtain ⟨t, htok, hread⟩ := helem₀ j hj
      refine ⟨t, ?_, hread⟩
      simpa using htok
    | succ i =>
      have hi' : i < rows'.length := by simpa using hi
      obtain ⟨row, hrow, hrlen, hrelem⟩ := helem i hi'
      refine ⟨row, hrow, hrlen, ?_⟩
      intro j hj
      obtain ⟨t, htok, hread⟩ := hrelem j hj
      refine ⟨t, ?_, hread⟩
      rw [hdrop, List.getElem?_drop] at htok
      rw [← htok]
      congr 1
      ring

/-! ## Decimal rendering round-trip lemmas -/

theorem decDigitsAux_valLSB :
    ∀ (fuel n : Nat), n ≤ fuel → valLSB (decDigitsAux fuel n) = n := by
  intro fuel
  induction fuel with
  | zero =>
    intro n h
    have : n = 0 := Nat.le_zero.mp h
    subst this
    rfl
  | succ fuel ih =>
    intro n h
    by_cases hn : n = 0
    · subst hn; simp [decDigitsAux, valLSB]
    · rw [show decDigitsAux (fuel + 1) n = n % 10 :: decDigitsAux fuel (n / 10) by
        simp [decDigitsAux, hn]]
      rw [show valLSB (n % 10 :: decDigitsAux fuel (n / 10))
            = n % 10 + 10 * valLSB (decDigitsAux fuel (n / 10)) from rfl]
      rw [ih (n / 10) (by omega)]
      omega

theorem decDigitsAux_lt_ten :
    ∀ (fuel n : Nat), ∀ d ∈ decDigitsAux fuel n, d < 10 := by
  intro fuel
  induction fuel with
  | zero => intro n d hd; simp [decDigitsAux] at hd
  | succ fuel ih =>
    intro n d hd
    by_cases hn : n = 0
    · subst hn; simp [decDigitsAux] at hd
    · rw [show decDigitsAux (fuel + 1) n = n % 10 :: decDigitsAux fuel (n / 10) by
        simp [decDigitsAux, hn]] at hd
      cases hd with
      | head => omega
      | tail _ hd => exact ih (n / 10) d hd

theorem foldl_digits_reverse :
    ∀ (l : List Nat) (a : Nat),
    List.foldl (fun x d => x * 10 + d) a l.reverse = a * 10 ^ l.length + valLSB l := by
  intro l
  induction l with
  | nil => intro a; simp [valLSB]
  | cons d l ih =>
    intro a
    rw [List.reverse_cons, List.foldl_append, ih a]
    rw [show valLSB (d :: l) = d + 10 * valLSB l from rfl]
    simp [pow_succ]
    ring

theorem digitsVal_decBytes (n : Nat) : digitsVal (decBytes n) = n := by
  by_cases hn : n = 0
  · subst hn; rfl
  · unfold decBytes
    rw [if_neg hn]
    unfold digitsVal
    rw [List.foldl_map]
    have : (fun (x d : Nat) => x * 10 + (d + 48 - 48)) = fun x d => x * 10 + d := by
      funext x d
      omega
    rw [this, foldl_digits_reverse]
    rw [decDigitsAux_valLSB n n (le_refl n)]
    omega

theorem decBytes_all_digits (n : Nat) : (decBytes n).all isDigit = true := by
  by_cases hn : n = 0
  · subst hn; rfl
  · unfold decBytes
    rw [if_neg hn]
    rw [List.all_eq_true]
    intro b hb
    rw [List.mem_map] at hb
    obtain ⟨d, hd, rfl⟩ := hb
    rw [List.mem_reverse] at hd
    have := decDigitsAux_lt_ten n n d hd
    simp [isDigit]
    omega

theorem decDigitsAux_ne_nil {n : Nat} (hn : n ≠ 0) : decDigitsAux n n ≠ [] := by
  cases n with
  | zero => exact absurd rfl hn
  | succ m => simp [decDigitsAux]

theorem decBytes_ne_nil (n : Nat) : decBytes n ≠ [] := by
  by_cases hn : n = 0
  · subst hn; simp [decBytes]
  · unfold decBytes
    rw [if_neg hn]
    simpa using decDigitsAux_ne_nil hn

theorem parseNatTok_decBytes (n : Nat) : parseNatTok (decBytes n) = some n := by
  unfold parseNatTok
  rw [if_neg (by simpa using decBytes_ne_nil n)]
  rw [if_pos (decBytes_all_digits n)]
  rw [digitsVal_decBytes]

theorem decBytes_tokOk (n : Nat) : tokOk (decBytes n) = true := by
  have hd := decBytes_all_digits n
  rw [List.all_eq_true] at hd
  simp only [tokOk, Bool.and_eq_true, Bool.not_eq_true', List.isEmpty_eq_false]
  refine ⟨decBytes_ne_nil n, ?_⟩
  rw [List.all_eq_true]
  intro b hb
  have := hd b hb
  simp [isDigit] at this
  simp [notWs, isWs]
  omega

theorem parseIntTok_decBytes (n : Nat) : parseIntTok (decBytes n) = some (n : Int) := by
  have hd := decBytes_all_digits n
  have hne := decBytes_ne_nil n
  cases hdb : decBytes n with
  | nil => exact absurd hdb hne
  | cons b bs =>
    have hb : isDigit b = true := by
      rw [hdb, List.all_cons, Bool.and_eq_true] at hd
      exact hd.1
    have hb48 : 48 ≤ b := by simp [isDigit] at hb; omega
    unfold parseIntTok
    have h45 : b ≠ 45 := by omega
    have h43 : b ≠ 43 := by omega
    rw [show (match b :: bs with
      | 45 :: rest => (parseNatTok rest).map fun n => -(n : Int)
      | 43 :: rest => (parseNatTok rest).map fun n => (n : Int)
      | _ => (parseNatTok (b :: bs)).map fun n => (n : Int))
      = (parseNatTok (b :: bs)).map fun n => (n : Int) by
        match b, h45, h43 with
        | 45, h, _ => exact absurd rfl h
        | 43, _, h => exact absurd rfl h
        | 0, _, _ => rfl
        | b + 46, _, _ => rfl]
    rw [← hdb, parseNatTok_decBytes n]
    rfl

theorem readValue_scalar_eq (sk : Scalar) (s : Source) {t : List Nat} {s₁ : Source}
    (hnt : nextToken s = some (t, s₁)) :
    readValue (.scalar sk) s
      = match Scalar.read sk t with | none => none | some v => some (v, s₁) := by
  unfold readValue
  rw [hnt]

theorem nextToken_decBytes (n : Nat) : nextToken (decBytes n) = some (decBytes n, []) := by
  have := nextToken_token_lead (t := decBytes n) (s := []) (decBytes_tokOk n) rfl
  rwa [List.append_nil] at this

/-! ## Claim theorems -/

/-- C1: Reading from the input `"32 54 -23"` with the kind tuple
`(u8, u32, i32)` yields exactly the values `(32, 54, -23)` (and consumes the
whole input). -/
theorem claim_C1_tuple_scenario :
    readValue
      (.tuple (.cons (.scalar .u8) (.cons (.scalar .u32) (.cons (.scalar .i32) .nil))))
      (strBytes "32 54 -23")
      = some (.tuple [.int 32, .int 54, .int (-23)], []) := rfl

/-- C2: For every source and every top-level read request that succeeds on
it, the tokens of the source split exactly into the tokens the request
consumed followed by the tokens of the final state: the next request starts
at exactly the following token, no token is consumed twice and none is
skipped. -/
theorem claim_C2_resumable (k₁ : Kind) (s : Source) (v₁ : Value) (s₁ : Source)
    (h : readValue k₁ s = some (v₁, s₁)) :
    tokenize s = (tokenize s).take k₁.tokenCount ++ tokenize s₁ ∧
    tokenize s₁ = (tokenize s).drop k₁.tokenCount := by
  have hd := readValue_drop k₁ s v₁ s₁ h
  refine ⟨?_, hd⟩
  rw [hd]
  exact (List.take_append_drop _ _).symm

/-- Witness for C2 at a concrete mid-line stop: reading one `usize` from
`"1 2\n3"` stops after the first token of the first line. -/
theorem claim_C2_resumable_witness :
    tokenize (strBytes "1 2\n3")
      = (tokenize (strBytes "1 2\n3")).take 1 ++ tokenize (strBytes " 2\n3") ∧
    tokenize (strBytes " 2\n3") = (tokenize (strBytes "1 2\n3")).drop 1 :=
  claim_C2_resumable (.scalar .usize) (strBytes "1 2\n3") (.int 1) (strBytes " 2\n3") rfl

/-- C3: Reading a length value `n` (as `usize`) and then a sequence of a
scalar kind of length `n` consumes exactly `n + 1` tokens, and the `i`-th
element of the sequence is the scalar value of the `(i+1)`-th consumed
token, in input order. -/
theorem claim_C3_length_then_seq (sk : Scalar) (n : Nat) (s s₁ s₂ : Source)
    (vs : List Value)
    (h₁ : readValue (.scalar .usize) s = some (.int (n : Int), s₁))
    (h₂ : readValue (.seq (.scalar sk) n) s₁ = some (.seq vs, s₂)) :
    tokenize s₂ = (tokenize s).drop (n + 1) ∧
    (tokenize s).take (n + 1) ++ tokenize s₂ = tokenize s ∧
    vs.length = n ∧
    ∀ i, (hi : i < vs.length) → ∃ t, (tokenize s)[i + 1]? = some t ∧
      Scalar.read sk t = some (vs.get ⟨i, hi⟩) := by
  obtain ⟨t₀, hnt, _⟩ := readValue_scalar_inv h₁
  obtain ⟨vs', hit, heq⟩ := readValue_seq_inv h₂
  injection heq with heq
  subst heq
  have htok : tokenize s = t₀ :: tokenize s₁ := tokenize_some hnt
  have hdrop₂ : tokenize s₂ = (tokenize s₁).drop n := by
    have := readValue_drop (.seq (.scalar sk) n) s₁ (.seq vs) s₂ h₂
    rw [this]
    congr 1
    show n * Kind.tokenCount (.scalar sk) = n
    rw [show Kind.tokenCount (.scalar sk) = 1 from rfl, Nat.mul_one]
  obtain ⟨hlen, helem⟩ := iterRead_scalar sk n s₁ vs s₂ hit
  have hmain : tokenize s₂ = (tokenize s).drop (n + 1) := by
    rw [htok, hdrop₂]
    rfl
  refine ⟨hmain, ?_, hlen, ?_⟩
  · rw [hmain]
    exact List.take_append_drop _ _
  · intro i hi
    obtain ⟨t, htk, hrd⟩ := helem i hi
    refine ⟨t, ?_, hrd⟩
    rw [htok, List.getElem?_cons_succ]
    exact htk

/-- Witness for C3: reading `n = 2` then two `u32` from `"2 10 20 x"`. -/
theorem claim_C3_length_then_seq_witness :
    tokenize (strBytes " x") = (tokenize (strBytes "2 10 20 x")).drop (2 + 1) :=
  (claim_C3_length_then_seq .u32 2 (strBytes "2 10 20 x") (strBytes " 10 20 x")
    (strBytes " x") [.int 10, .int 20] rfl rfl).1

/-- C4: A decrementing index kind parses the token as the corresponding
integer type and returns that value minus one; reading `"1"` yields `0`,
and a token parsing to the type's minimum (here `"0"` for `Usize1`) fails
with underflow. -/
theorem claim_C4_decrement :
    (∀ (t : List Nat) (z : Int), Scalar.read .usize t = some (.int z) →
      (z = 0 → Scalar.read .usize1 t = none) ∧
      (z ≠ 0 → Scalar.read .usize1 t = some (.int (z - 1)))) ∧
    readValue (.scalar .usize1) (strBytes "1") = some (.int 0, []) ∧
    readValue (.scalar .usize1) (strBytes "0") = none := by
  refine ⟨?_, rfl, rfl⟩
  intro t z h
  rw [show Scalar.read .usize t
      = (parseNatTok t).bind (fun n => if n < 2 ^ 64 then some (.int n) else none)
      from rfl] at h
  cases hp : parseNatTok t with
  | none => rw [hp] at h; exact absurd h (by simp)
  | some n =>
    rw [hp] at h
    dsimp only [Option.bind] at h
    by_cases hlt : n < 2 ^ 64
    · rw [if_pos hlt] at h
      injection h with h
      injection h with hz
      rw [show Scalar.read .usize1 t
          = (parseNatTok t).bind (fun n => if n < 2 ^ 64 then
              (if n = 0 then none else some (.int ((n : Int) - 1))) else none)
          from rfl, hp]
      dsimp only [Option.bind]
      rw [if_pos hlt]
      constructor
      · intro hz0
        have hn0 : n = 0 := by
          rw [← hz] at hz0
          exact_mod_cast hz0
        rw [if_pos hn0]
      · intro hz0
        have hn0 : n ≠ 0 := by
          intro hcon
          apply hz0
          rw [← hz, hcon]
          rfl
        rw [if_neg hn0, hz]
    · rw [if_neg hlt] at h
      exact absurd h (by simp)

/-- Witness for C4's general part at token `"5"`: `Usize1` yields `4`. -/
theorem claim_C4_decrement_witness :
    Scalar.read .usize1 (strBytes "5") = some (.int (5 - 1)) :=
  (claim_C4_decrement.1 (strBytes "5") 5 rfl).2 (by decide)

/-- C5: Nested sequence reading is row-major: reading `[[scalar; n]; m]`
produces `m` rows of length `n`, and the element at outer index `i`, inner
index `j`, is the scalar value of the `(i*n+j)`-th consumed token. -/
theorem claim_C5_row_major (sk : Scalar) (m n : Nat) (s s' : Source)
    (rows : List Value)
    (h : readValue (.seq (.seq (.scalar sk) n) m) s = some (.seq rows, s')) :
    rows.length = m ∧
    ∀ i, (hi : i < rows.length) → ∃ row : List Value,
      rows.get ⟨i, hi⟩ = .seq row ∧ row.length = n ∧
      ∀ j, (hj : j < row.length) → ∃ t, (tokenize s)[i * n + j]? = some t ∧
        Scalar.read sk t = some (row.get ⟨j, hj⟩) := by
  obtain ⟨vs, hit, heq⟩ := readValue_seq_inv h
  injection heq with heq
  subst heq
  exact iterRead_rows sk n m s rows s' hit

/-- Witness for C5: a 2×2 `i32` matrix from `"1 2 3 4"`. -/
theorem claim_C5_row_major_witness :
    readValue (.seq (.seq (.scalar .i32) 2) 2) (strBytes "1 2 3 4")
      = some (.seq [.seq [.int 1, .int 2], .seq [.int 3, .int 4]], []) ∧
    ([Value.seq [.int 1, .int 2], Value.seq [.int 3, .int 4]]).length = 2 :=
  ⟨rfl,
    (claim_C5_row_major .i32 2 2 (strBytes "1 2 3 4") []
      [.seq [.int 1, .int 2], .seq [.int 3, .int 4]] rfl).1⟩

/-- C6: For every token list and every choice of non-empty whitespace
separators (with optional leading and trailing whitespace), tokenizing the
rendered stream gives the same token list as joining the tokens with a
single space — whitespace runs collapse and boundary whitespace is
discarded. -/
theorem claim_C6_whitespace_invariance (ps : List (List Nat × List Nat))
    (lead tfin : List Nat)
    (hlead : wsOnly lead = true) (htfin : tfin.all notWs = true)
    (hps : ∀ p ∈ ps, tokOk p.1 = true ∧ p.2 ≠ [] ∧ wsOnly p.2 = true) :
    tokenize (lead ++ render ps ++ tfin)
      = tokenize (spaceJoin (ps.map Prod.fst ++ if tfin.isEmpty then [] else [tfin])) ∧
    tokenize (lead ++ render ps ++ tfin)
      = ps.map Prod.fst ++ (if tfin.isEmpty then [] else [tfin]) := by
  have h₁ := tokenize_render ps lead tfin hlead htfin hps
  have h₂ : tokenize (spaceJoin (ps.map Prod.fst ++ if tfin.isEmpty then [] else [tfin]))
      = ps.map Prod.fst ++ (if tfin.isEmpty then [] else [tfin]) := by
    apply tokenize_spaceJoin
    intro t ht
    rw [List.mem_append] at ht
    cases ht with
    | inl hin =>
      obtain ⟨p, hp, rfl⟩ := List.mem_map.mp hin
      exact (hps p hp).1
    | inr hin =>
      by_cases he : tfin.isEmpty = true
      · rw [if_pos he] at hin
        simp at hin
      · rw [if_neg he] at hin
        have ht' : t = tfin := by simpa using hin
        subst ht'
        simp only [tokOk, Bool.and_eq_true, Bool.not_eq_true']
        exact ⟨by simpa using he, htfin⟩
  exact ⟨h₁.trans h₂.symm, h₁⟩

/-- Witness for C6: tokens `"a"`, `"bc"` with separators `"\t\r"` and
`"\n\n "`, lead `"  "`, and a trailing bare token `"x"`. -/
theorem claim_C6_whitespace_invariance_witness :
    tokenize ([32, 32] ++ render [([97], [9, 13]), ([98, 99], [10, 10, 32])] ++ [120])
      = tokenize (spaceJoin ([[97], [98, 99]] ++ if ([120] : List Nat).isEmpty then [] else [[120]])) ∧
    tokenize ([32, 32] ++ render [([97], [9, 13]), ([98, 99], [10, 10, 32])] ++ [120])
      = [[97], [98, 99]] ++ (if ([120] : List Nat).isEmpty then [] else [[120]]) :=
  claim_C6_whitespace_invariance [([97], [9, 13]), ([98, 99], [10, 10, 32])]
    [32, 32] [120] (by decide) (by decide) (by decide)

theorem readValue_scalar_of_read (sk : Scalar) {s : Source} {t : List Nat} {s₁ : Source}
    {v : Value} (hnt : nextToken s = some (t, s₁)) (hr : Scalar.read sk t = some v) :
    readValue (.scalar sk) s = some (v, s₁) := by
  unfold readValue
  rw [hnt]
  dsimp only
  rw [hr]

theorem some_bind_ite_nat (m B : Nat) (g : Nat → Value) (h : m < B) :
    ((some m).bind (fun k => if k < B then some (g k) else none)) = some (g m) := by
  rw [Option.some_bind]
  show (if m < B then some (g m) else none) = some (g m)
  rw [if_pos h]

theorem some_bind_ite_signed (x B C : Int) (g : Int → Value) (h : -B ≤ x ∧ x < C) :
    ((some x).bind (fun z => if -B ≤ z ∧ z < C then some (g z) else none)) = some (g x) := by
  rw [Option.some_bind]
  show (if -B ≤ x ∧ x < C then some (g x) else none) = some (g x)
  rw [if_pos h]

/-- C7: For every non-negative integer within an integer kind's range,
rendering it as decimal text and reading it back as that kind yields the
original value. -/
theorem claim_C7_roundtrip (n : Nat) :
    (n < 2 ^ 8 → readValue (.scalar .u8) (decBytes n) = some (.int n, [])) ∧
    (n < 2 ^ 32 → readValue (.scalar .u32) (decBytes n) = some (.int n, [])) ∧
    (n < 2 ^ 64 → readValue (.scalar .usize) (decBytes n) = some (.int n, [])) ∧
    (n < 2 ^ 31 → readValue (.scalar .i32) (decBytes n) = some (.int n, [])) ∧
    (n < 2 ^ 63 → readValue (.scalar .isize) (decBytes n) = some (.int n, [])) := by
  have hnt := nextToken_decBytes n
  refine ⟨?_, ?_, ?_, ?_, ?_⟩
  · intro h
    refine readValue_scalar_of_read .u8 hnt ?_
    rw [show Scalar.read .u8 (decBytes n)
        = (parseNatTok (decBytes n)).bind
            (fun m => if m < 2 ^ 8 then some (.int m) else none)
        from rfl, parseNatTok_decBytes]
    exact some_bind_ite_nat n (2 ^ 8) (fun k => .int k) h
  · intro h
    refine readValue_scalar_of_read .u32 hnt ?_
    rw [show Scalar.read .u32 (decBytes n)
        = (parseNatTok (decBytes n)).bind
            (fun m => if m < 2 ^ 32 then some (.int m) else none)
        from rfl, parseNatTok_decBytes]
    exact some_bind_ite_nat n (2 ^ 32) (fun k => .int k) h
  · intro h
    refine readValue_scalar_of_read .usize hnt ?_
    rw [show Scalar.read .usize (decBytes n)
        = (parseNatTok (decBytes n)).bind
            (fun m => if m < 2 ^ 64 then some (.int m) else none)
        from rfl, parseNatTok_decBytes]
    exact some_bind_ite_nat n (2 ^ 64) (fun k => .int k) h
  · intro h
    refine readValue_scalar_of_read .i32 hnt ?_
    rw [show Scalar.read .i32 (decBytes n)
        = (parseIntTok (decBytes n)).bind
            (fun z => if -(2 ^ 31 : Int) ≤ z ∧ z < 2 ^ 31 then some (.int z) else none)
        from rfl, parseIntTok_decBytes]
    exact some_bind_ite_signed (n : Int) (2 ^ 31) (2 ^ 31) (fun z => .int z)
      ⟨by omega, by exact_mod_cast h⟩
  · intro h
    refine readValue_scalar_of_read .isize hnt ?_
    rw [show Scalar.read .isize (decBytes n)
        = (parseIntTok (decBytes n)).bind
            (fun z => if -(2 ^ 63 : Int) ≤ z ∧ z < 2 ^ 63 then some (.int z) else none)
        from rfl, parseIntTok_decBytes]
    exact some_bind_ite_signed (n : Int) (2 ^ 63) (2 ^ 63) (fun z => .int z)
      ⟨by omega, by exact_mod_cast h⟩

/-- Witness for C7 at `n = 200` read back as `u8`. -/
theorem claim_C7_roundtrip_witness :
    200 < 2 ^ 8 ∧ readValue (.scalar .u8) (decBytes 200) = some (.int 200, []) :=
  ⟨by decide, (claim_C7_roundtrip 200).1 (by decide)⟩

/-- C8: Reading a sequence kind with length zero always succeeds, yields
the empty sequence, and consumes nothing, for every element kind and every
source state. -/
theorem claim_C8_empty_seq (k : Kind) (s : Source) :
    readValue (.seq k 0) s = some (.seq [], s) := rfl

/-- C9: An aggregate kind reads each named field's kind in declaration
order from the same source, and the zero-field marker kind consumes no
token, always succeeds, and produces the fixed sentinel; reading
`"12 32 35"` as `{from: usize, to: Usize1, weight: marker, cost: i32}`
yields `{from: 12, to: 31, weight: sentinel, cost: 35}`. -/
theorem claim_C9_aggregate :
    (∀ s : Source, readValue .marker s = some (.unit, s)) ∧
    readEdge (strBytes "12 32 35") = some (⟨12, 31, (), 35⟩, []) :=
  ⟨fun _ => rfl, rfl⟩

/-- C10: The declarative read macro invoked with an empty binding list
performs no read and leaves the source state unchanged. -/
theorem claim_C10_empty_input (s : Source) : input [] s = some ([], s) := rfl

end Proconio
